import Mathlib

/-!
Verification of the doclint rule engine (src/doclint.js).

The JavaScript source is embedded shallowly: strings are Lean strings,
JavaScript regex splits are modelled by explicit run-splitting over
character lists, machine numbers are natural numbers, and the document
tree produced by the external markdown parser is an inductive tree.
Case conversion is modelled on the ASCII range, where it coincides with
the behaviour of String.prototype.toUpperCase and toLowerCase.
-/

namespace DocLint

/-- JavaScript whitespace characters matched by the regex class \s
(restricted to the ASCII range used throughout this development). -/
def isWsChar (c : Char) : Bool :=
  c = ' ' || c = '\t' || c = '\n' || c = '\r' || c = '\x0b' || c = '\x0c'

/-- Sentence terminator characters of the regex class [.!?]
in splitIntoSentences. -/
def isTermChar (c : Char) : Bool :=
  c = '.' || c = '!' || c = '?'

/-- ASCII model of String.prototype.toUpperCase on a single character:
lowercase letters a-z are mapped to A-Z, every other character is fixed. -/
def jsToUpperChar (c : Char) : Char :=
  if 'a' ≤ c ∧ c ≤ 'z' then Char.ofNat (c.toNat - 32) else c

/-- ASCII model of String.prototype.toLowerCase on a single character. -/
def jsToLowerChar (c : Char) : Char :=
  if 'A' ≤ c ∧ c ≤ 'Z' then Char.ofNat (c.toNat + 32) else c

/-- ASCII model of String.prototype.toLowerCase. -/
def jsToLowerStr (s : String) : String :=
  ⟨s.data.map jsToLowerChar⟩

/-- Worker for JavaScript String.prototype.split with a one-or-more
character-class regex (such as /\s+/ or /[.!?]+/): a maximal run of
matching characters is a single separator.  The accumulator holds the
current segment reversed; the flag records whether the previous
character belonged to a separator run. -/
def splitRunsGo (p : Char → Bool) : List Char → List Char → Bool → List (List Char)
  | [], acc, _ => [acc.reverse]
  | c :: cs, acc, inRun =>
    if p c then
      if inRun then splitRunsGo p cs acc true
      else acc.reverse :: splitRunsGo p cs [] true
    else splitRunsGo p cs (c :: acc) false

/-- JavaScript String.prototype.split on runs of characters satisfying p.
Like the JavaScript original it yields an empty leading (trailing) segment
when the input starts (ends) with a separator, and [""] on "". -/
def jsSplit (p : Char → Bool) (l : List Char) : List (List Char) :=
  splitRunsGo p l [] false

/-- The word list text.split(/\s+/) used by isSentenceCase and countWords. -/
def splitWords (l : List Char) : List (List Char) :=
  jsSplit isWsChar l

/-- JavaScript String.prototype.trim (ASCII whitespace model). -/
def trimL (l : List Char) : List Char :=
  ((l.dropWhile isWsChar).reverse.dropWhile isWsChar).reverse

/-- splitIntoSentences from the source: split on runs of ., !, ?, trim each
segment, and drop segments that are empty after trimming. -/
def splitIntoSentences (s : String) : List String :=
  (((jsSplit isTermChar s.data).map trimL).filter (fun l => !l.isEmpty)).map
    (fun l => (⟨l⟩ : String))

/-- countWords from the source: split on runs of whitespace and count the
non-empty tokens. -/
def countWords (s : String) : Nat :=
  ((splitWords s.data).filter (fun w => w.length > 0)).length

/-- The capitalization test applied to words[i] inside isSentenceCase:
the word is non-empty and its first character equals its own uppercase
image. -/
def isCapitalizedWord (w : List Char) : Bool :=
  match w with
  | [] => false
  | c :: _ => c = jsToUpperChar c

/-- The tally phase of isSentenceCase (the code after the first-character
check): with at most one word the text passes; otherwise the words from
index 1 on whose first character is uppercase are counted and the text
passes iff that count is strictly below half the word count.  The
JavaScript comparison capitalizedCount < words.length / 2 uses real
division, hence the form 2 * count < length. -/
def sentenceTally (l : List Char) : Bool :=
  let words := splitWords l
  if words.length ≤ 1 then true
  else decide (2 * ((words.drop 1).countP isCapitalizedWord) < words.length)

/-- isSentenceCase over the character list of the text: empty text passes;
text whose first character differs from its own uppercase image is
rejected immediately; otherwise the majority tally decides. -/
def isSentenceCaseL (l : List Char) : Bool :=
  match l with
  | [] => true
  | c :: _ =>
    if c ≠ jsToUpperChar c then false
    else sentenceTally l

/-- isSentenceCase from the source. -/
def isSentenceCase (s : String) : Bool :=
  isSentenceCaseL s.data

example : isSentenceCase "" = true := by decide
example : isSentenceCase "hello world" = false := by decide
example : isSentenceCase "Hello world" = true := by decide
example : isSentenceCase "Hello World Foo" = false := by decide
example : splitIntoSentences "Hello. World!" = ["Hello", "World"] := by decide
example : splitIntoSentences "No terminator" = ["No terminator"] := by decide
example : countWords "  a   b " = 2 := by decide

/-- A node of the parsed markdown document tree (the shape produced by the
external remark parser, as the linter consumes it): a kind string, the
1-based start line already collapsed through position?.start.line with 0
for an unknown position, the literal value carried by text leaves, and the
ordered children. -/
inductive MdNode where
  | node (kind : String) (line : Nat) (value : String) (children : List MdNode)

/-- Kind of a node. -/
def MdNode.kind : MdNode → String
  | .node k _ _ _ => k

/-- Start line of a node (0 when the position was unavailable). -/
def MdNode.line : MdNode → Nat
  | .node _ l _ _ => l

/-- Literal text value of a node (meaningful on text leaves). -/
def MdNode.value : MdNode → String
  | .node _ _ v _ => v

/-- Children of a node. -/
def MdNode.children : MdNode → List MdNode
  | .node _ _ _ cs => cs

mutual

/-- unist-util-visit restricted to collection: the nodes of the subtree
whose kind is among the given kinds, in preorder (a node before its
children, children left to right). -/
def collectKinds (kinds : List String) : MdNode → List MdNode
  | .node k l v cs =>
    (if k ∈ kinds then [MdNode.node k l v cs] else []) ++ collectKindsList kinds cs

/-- collectKinds over a list of sibling subtrees, left to right. -/
def collectKindsList (kinds : List String) : List MdNode → List MdNode
  | [] => []
  | n :: ns => collectKinds kinds n ++ collectKindsList kinds ns

end

/-- extractText from the source: concatenate the value of every text leaf
of the subtree, in document order. -/
def extractText (n : MdNode) : String :=
  String.join ((collectKinds ["text"] n).map MdNode.value)

/-- One reported issue: the object literal pushed by every evaluator. -/
structure Diagnostic where
  line : Nat
  rule : String
  severity : String
  message : String
deriving DecidableEq, Repr

/-- The rule-specific argument object: each field is optional, mirroring
property presence on the JavaScript args object. -/
structure RuleArgs where
  min : Option Nat := none
  limit : Option Nat := none
  phrases : Option (List String) := none
deriving DecidableEq, Repr

/-- One entry of config.rules. -/
structure RuleConfig where
  level : String
  message : String
  args : RuleArgs
deriving DecidableEq, Repr

/-- The JavaScript idiom (value || default) on a numeric argument: an
absent value and the falsy number 0 both yield the default. -/
def jsOrNum (v : Option Nat) (d : Nat) : Nat :=
  match v with
  | none => d
  | some n => if n = 0 then d else n

/-- The JavaScript idiom (config.args.phrases || []): only an absent value
falls back, an array (even empty) is truthy. -/
def jsOrPhrases (v : Option (List String)) : List String :=
  match v with
  | none => []
  | some l => l

/-- The headingCase evaluator: visit heading nodes and report those whose
extracted text fails isSentenceCase. -/
def headingCase (node : MdNode) (config : RuleConfig) : List Diagnostic :=
  (collectKinds ["heading"] node).filterMap (fun h =>
    if isSentenceCase (extractText h) then none
    else some ⟨h.line, "heading-case", config.level, config.message⟩)

/-- The minimumWordsInSentence evaluator: visit paragraph nodes and report
every sentence whose word count is positive but below min (default 10). -/
def minimumWordsInSentence (node : MdNode) (config : RuleConfig) : List Diagnostic :=
  (collectKinds ["paragraph"] node).flatMap (fun p =>
    (splitIntoSentences (extractText p)).filterMap (fun s =>
      if 0 < countWords s ∧ countWords s < jsOrNum config.args.min 10 then
        some ⟨p.line, "minimum-words-in-sentence", config.level, config.message⟩
      else none))

/-- The maxWordsInSentence evaluator: visit paragraph nodes and report
every sentence whose word count exceeds limit (default 25). -/
def maxWordsInSentence (node : MdNode) (config : RuleConfig) : List Diagnostic :=
  (collectKinds ["paragraph"] node).flatMap (fun p =>
    (splitIntoSentences (extractText p)).filterMap (fun s =>
      if jsOrNum config.args.limit 25 < countWords s then
        some ⟨p.line, "max-words-in-sentence", config.level, config.message⟩
      else none))

/-- The maxSentencesInParagraph evaluator: visit paragraph nodes and
report each paragraph whose sentence count exceeds limit (default 5). -/
def maxSentencesInParagraph (node : MdNode) (config : RuleConfig) : List Diagnostic :=
  (collectKinds ["paragraph"] node).filterMap (fun p =>
    if jsOrNum config.args.limit 5 < (splitIntoSentences (extractText p)).length then
      some ⟨p.line, "max-sentences-in-paragraph", config.level, config.message⟩
    else none)

/-- Substring containment on character lists, the model of
String.prototype.includes (true on an empty needle). -/
def strIncludes : List Char → List Char → Bool
  | hay, needle =>
    match hay with
    | [] => needle.isEmpty
    | c :: t => needle.isPrefixOf (c :: t) || strIncludes t needle

/-- The bannedPhrases evaluator: visit paragraph and heading nodes and,
for each configured phrase occurring case-insensitively in the node text,
push one diagnostic. -/
def bannedPhrases (node : MdNode) (config : RuleConfig) : List Diagnostic :=
  (collectKinds ["paragraph", "heading"] node).flatMap (fun tn =>
    (jsOrPhrases config.args.phrases).filterMap (fun phrase =>
      if strIncludes (jsToLowerStr (extractText tn)).data (jsToLowerStr phrase).data then
        some ⟨tn.line, "banned-phrases", config.level, config.message⟩
      else none))

/-- The own properties of the rules object literal: the five evaluators
the name-keyed lookup rules[ruleName] can find as own properties. -/
def rulesCatalog (name : String) : Option (MdNode → RuleConfig → List Diagnostic) :=
  if name = "headingCase" then some headingCase
  else if name = "minimumWordsInSentence" then some minimumWordsInSentence
  else if name = "maxWordsInSentence" then some maxWordsInSentence
  else if name = "maxSentencesInParagraph" then some maxSentencesInParagraph
  else if name = "bannedPhrases" then some bannedPhrases
  else none

/-- The full lint configuration: config.rules as an association list in
insertion order (the order Object.entries yields), plus the output
format. -/
structure LintConfig where
  rules : List (String × RuleConfig)
  format : String
deriving Repr

/-- The accumulation loop of lintFile on configurations whose rule names
do not collide with members inherited from Object.prototype: for every
configured rule, in mapping order, run its evaluator when it exists in
the catalog and append the results, skipping names the lookup misses.
The prototype-aware model of the same loop is collectIssuesJs below. -/
def collectIssues (ast : MdNode) (rules : List (String × RuleConfig)) : List Diagnostic :=
  rules.flatMap (fun entry =>
    match rulesCatalog entry.1 with
    | some evaluator => evaluator ast entry.2
    | none => [])

/-- Stable insertion of a diagnostic into a list sorted by line: it goes
in front of the first element whose line is not smaller. -/
def insertByLine (d : Diagnostic) : List Diagnostic → List Diagnostic
  | [] => [d]
  | x :: xs => if x.line < d.line then x :: insertByLine d xs else d :: x :: xs

/-- The stable sort allIssues.sort((a, b) => a.line - b.line): JavaScript
Array.prototype.sort is specified stable, modelled by stable insertion
sort on the line key. -/
def sortByLine (l : List Diagnostic) : List Diagnostic :=
  l.foldr insertByLine []

/-- lintFile on an already-parsed tree: run the configured evaluators in
order and stable-sort the merged diagnostics by line. -/
def lintFile (ast : MdNode) (config : LintConfig) : List Diagnostic :=
  sortByLine (collectIssues ast config.rules)

/-- path.basename for forward-slash paths: the part after the last
separator. -/
def basename (p : String) : String :=
  ⟨(p.data.reverse.takeWhile (fun c => c ≠ '/')).reverse⟩

/-- The value formatOutput returns: a rendered text report, or (on every
other format) the untouched diagnostic array that the caller serializes
as JSON. -/
inductive RenderedOutput where
  | text (report : String)
  | raw (issues : List Diagnostic)
deriving DecidableEq, Repr

/-- One line of the text report. -/
def formatIssueLine (fileName : String) (i : Diagnostic) : String :=
  fileName ++ ":" ++ toString i.line ++ ": " ++ i.message ++
    " [" ++ i.rule ++ "] [" ++ i.severity ++ "]"

/-- formatOutput from the source: on format "text" render the report
lines joined by newlines; on every other format return the issues
unchanged. -/
def formatOutput (filePath : String) (issues : List Diagnostic) (format : String) :
    RenderedOutput :=
  if format = "text" then
    .text (String.intercalate "\n" (issues.map (formatIssueLine (basename filePath))))
  else
    .raw issues

/-- A serialized JSON value (only the shapes a diagnostic uses). -/
inductive JsonValue where
  | num (n : Nat)
  | str (s : String)
deriving DecidableEq, Repr

/-- The key-value pairs JSON.stringify emits for one diagnostic record, in
the insertion order of the object literal the evaluators push. -/
def diagnosticJsonFields (d : Diagnostic) : List (String × JsonValue) :=
  [("line", .num d.line), ("rule", .str d.rule),
   ("severity", .str d.severity), ("message", .str d.message)]

/-- A sample diagnostic used by several concrete evaluations. -/
def sampleDiag : Diagnostic :=
  ⟨3, "heading-case", "warning", "Heading should be in sentence case."⟩

/-- Every member of a stable insertion is the inserted element or an old
member. -/
theorem mem_insertByLine (d y : Diagnostic) (l : List Diagnostic)
    (h : y ∈ insertByLine d l) : y = d ∨ y ∈ l := by
  induction l with
  | nil =>
    simp [insertByLine] at h
    exact Or.inl h
  | cons x xs ih =>
    by_cases hx : x.line < d.line
    · simp only [insertByLine, if_pos hx, List.mem_cons] at h
      rcases h with h | h
      · exact Or.inr (by simp [h])
      · rcases ih h with h1 | h1
        · exact Or.inl h1
        · exact Or.inr (by simp [h1])
    · simp only [insertByLine, if_neg hx, List.mem_cons] at h
      rcases h with h | h | h
      · exact Or.inl h
      · exact Or.inr (by simp [h])
      · exact Or.inr (by simp [h])

/-- Stable insertion preserves sortedness by line. -/
theorem pairwise_insertByLine (d : Diagnostic) (l : List Diagnostic)
    (h : List.Pairwise (fun a b => a.line ≤ b.line) l) :
    List.Pairwise (fun a b => a.line ≤ b.line) (insertByLine d l) := by
  induction l with
  | nil => simp [insertByLine]
  | cons x xs ih =>
    rcases List.pairwise_cons.mp h with ⟨hx, hxs⟩
    by_cases hlt : x.line < d.line
    · simp only [insertByLine, if_pos hlt]
      refine List.pairwise_cons.mpr ⟨?_, ih hxs⟩
      intro y hy
      rcases mem_insertByLine d y xs hy with rfl | hy2
      · exact Nat.le_of_lt hlt
      · exact hx y hy2
    · simp only [insertByLine, if_neg hlt]
      refine List.pairwise_cons.mpr ⟨?_, h⟩
      intro y hy
      rcases List.mem_cons.mp hy with rfl | hy2
      · exact Nat.le_of_not_lt hlt
      · exact Nat.le_trans (Nat.le_of_not_lt hlt) (hx y hy2)

/-- The output of sortByLine is sorted by line. -/
theorem sortByLine_sorted (l : List Diagnostic) :
    List.Pairwise (fun a b => a.line ≤ b.line) (sortByLine l) := by
  induction l with
  | nil => simp [sortByLine]
  | cons a l ih =>
    have : sortByLine (a :: l) = insertByLine a (sortByLine l) := rfl
    rw [this]
    exact pairwise_insertByLine a _ ih

/-- Stable insertion seen through a line filter: the inserted element goes
to the front of its own line class, every other line class is untouched. -/
theorem filter_insertByLine (d : Diagnostic) (k : Nat) (l : List Diagnostic) :
    (insertByLine d l).filter (fun x => x.line == k)
      = if d.line = k then d :: l.filter (fun x => x.line == k)
        else l.filter (fun x => x.line == k) := by
  induction l with
  | nil =>
    by_cases hd : d.line = k <;> simp [insertByLine, hd]
  | cons x xs ih =>
    by_cases hlt : x.line < d.line
    · have h1 : insertByLine d (x :: xs) = x :: insertByLine d xs := by
        simp [insertByLine, hlt]
      rw [h1, List.filter_cons]
      by_cases hd : d.line = k
      · have hx : ¬ (x.line = k) := by omega
        simp [hx, ih, hd]
      · by_cases hx : x.line = k <;> simp [hx, ih, hd]
    · have h1 : insertByLine d (x :: xs) = d :: x :: xs := by
        simp [insertByLine, hlt]
      rw [h1, List.filter_cons, List.filter_cons]
      by_cases hd : d.line = k <;> by_cases hx : x.line = k <;> simp [hx, hd]

/-- sortByLine is stable: each line class of the output is the line class
of the input, in the same order. -/
theorem sortByLine_filter (k : Nat) (l : List Diagnostic) :
    (sortByLine l).filter (fun x => x.line == k) = l.filter (fun x => x.line == k) := by
  induction l with
  | nil => rfl
  | cons a l ih =>
    have h1 : sortByLine (a :: l) = insertByLine a (sortByLine l) := rfl
    rw [h1, filter_insertByLine]
    by_cases ha : a.line = k <;> simp [ha, List.filter_cons, ih]

/-- C1: for every document tree and lint configuration, the diagnostic
sequence returned by lint is sorted by line ascending, and the sort is
stable over insertion order: filtering the output to any fixed line value
yields exactly the diagnostics with that line in the order the evaluators
(run in the order the rules mapping lists them) produced them. -/
theorem lintFile_sorted_stable (ast : MdNode) (config : LintConfig) :
    List.Pairwise (fun a b => a.line ≤ b.line) (lintFile ast config) ∧
    ∀ k : Nat, (lintFile ast config).filter (fun d => d.line == k)
      = (collectIssues ast config.rules).filter (fun d => d.line == k) :=
  ⟨sortByLine_sorted _, fun k => sortByLine_filter k _⟩

/-- C2 counterexample: the claim says a format value that is neither text
nor json is a fatal error at format time and no rendered report is
produced; but formatOutput is total and on the unknown format xml it
returns the diagnostics unchanged, exactly the report the json path
produces. -/
theorem formatOutput_unknown_format_yields_report :
    formatOutput "docs/readme.md" [sampleDiag] "xml" = RenderedOutput.raw [sampleDiag] := by
  rfl

/-- C2 amended: every format value other than text (json included) takes
the same non-text path and yields the diagnostic sequence unchanged;
unknown format values are not rejected. -/
theorem formatOutput_nontext_eq_raw (filePath : String) (issues : List Diagnostic)
    (format : String) (h : format ≠ "text") :
    formatOutput filePath issues format = RenderedOutput.raw issues := by
  simp [formatOutput, h]

/-- Witness for the amended C2 statement at the concrete format xml. -/
theorem formatOutput_nontext_eq_raw_witness :
    formatOutput "report.md" [sampleDiag] "yaml" = RenderedOutput.raw [sampleDiag] :=
  formatOutput_nontext_eq_raw "report.md" [sampleDiag] "yaml" (by decide)

/-- C3: the json output is the flat diagnostic array unchanged, and each
serialized record carries exactly the fields line, rule, severity and
message, with no file field, contradicting the claimed per-record file
field. -/
theorem json_record_fields_no_file :
    formatOutput "file.md" [sampleDiag] "json" = RenderedOutput.raw [sampleDiag] ∧
    (diagnosticJsonFields sampleDiag).lookup "file" = none ∧
    (diagnosticJsonFields sampleDiag).map Prod.fst
      = ["line", "rule", "severity", "message"] :=
  ⟨rfl, rfl, rfl⟩

/-- The function- or object-valued property names every plain object
inherits from Object.prototype: a lookup rules[ruleName] at one of these
names is truthy even though the catalog has no such evaluator, so the
guard if rules[ruleName] takes the call branch instead of skipping. -/
def objectProtoNames : List String :=
  ["constructor", "hasOwnProperty", "isPrototypeOf", "propertyIsEnumerable",
   "toLocaleString", "toString", "valueOf", "__proto__", "__defineGetter__",
   "__defineSetter__", "__lookupGetter__", "__lookupSetter__"]

/-- What spreading the result of invoking an inherited member as
rules[ruleName](ast, ruleConfig) does to the issue accumulator. -/
inductive ProtoCallEffect where
  | pushChars (cs : List Char)
  | abortTypeError
deriving DecidableEq, Repr

/-- The effect of each inherited member when invoked with the tree and
the rule configuration as arguments and the rules object as receiver:
toString and toLocaleString return the string [object Object], which is
iterable and spreads into its fifteen characters; every other member
either returns a non-iterable value (booleans from the property tests,
the receiver from valueOf, the tree from constructor, undefined from the
lookup accessors) whose spread throws a TypeError, or throws already at
the call (the accessors with non-callable arguments, and the
non-callable object produced by the proto accessor). -/
def protoCallEffect (name : String) : ProtoCallEffect :=
  if name = "toString" ∨ name = "toLocaleString" then
    .pushChars "[object Object]".data
  else .abortTypeError

/-- An element of the untyped issue array: a pushed diagnostic record, or
a one-character string pushed by spreading [object Object]. -/
inductive IssueItem where
  | diag (d : Diagnostic)
  | char (c : Char)
deriving DecidableEq, Repr

/-- The uncaught TypeError aborting a lint run. -/
inductive JsTypeError where
  | typeError
deriving DecidableEq, Repr

/-- The accumulation loop of lintFile with the full JavaScript property
lookup: own catalog properties run their evaluator; names inherited from
Object.prototype are truthy, so the member is invoked, polluting the
issue list or aborting the run; only names the whole prototype chain
misses are skipped. -/
def collectIssuesJs (ast : MdNode) :
    List (String × RuleConfig) → Except JsTypeError (List IssueItem)
  | [] => .ok []
  | (name, rc) :: rest =>
    match rulesCatalog name with
    | some evaluator =>
      match collectIssuesJs ast rest with
      | .ok tail => .ok ((evaluator ast rc).map IssueItem.diag ++ tail)
      | .error e => .error e
    | none =>
      if name ∈ objectProtoNames then
        match protoCallEffect name with
        | .pushChars cs =>
          match collectIssuesJs ast rest with
          | .ok tail => .ok (cs.map IssueItem.char ++ tail)
          | .error e => .error e
        | .abortTypeError => .error .typeError
      else collectIssuesJs ast rest

/-- A configuration entry for a rule name absent from the catalog. -/
def unknownRuleConfig : RuleConfig := ⟨"warning", "Spelling issue.", ⟨none, none, none⟩⟩

/-- A small document with a heading that is not sentence case. -/
def sampleAst : MdNode :=
  .node "root" 1 "" [.node "heading" 1 "" [.node "text" 1 "the quick fix" []]]

/-- C7 counterexample: the rule name hasOwnProperty has no matching
evaluator in the fixed catalog, yet lint does not skip it silently: the
inherited member is invoked, the spread of its boolean result throws an
uncaught TypeError, and no output equal to the entry-removed output (the
empty report) is produced.  The rule name toString likewise has no
catalog evaluator, yet it changes the output: the fifteen characters of
[object Object] are pushed into the issue list. -/
theorem lintFile_unknown_rule_counterexample :
    rulesCatalog "hasOwnProperty" = none ∧
    collectIssuesJs sampleAst [("hasOwnProperty", unknownRuleConfig)]
      = .error JsTypeError.typeError ∧
    collectIssuesJs sampleAst [] = .ok [] ∧
    rulesCatalog "toString" = none ∧
    collectIssuesJs sampleAst [("toString", unknownRuleConfig)]
      = .ok (("[object Object]".data).map IssueItem.char) :=
  ⟨rfl, rfl, rfl, rfl, rfl⟩

/-- Removing an entry whose name misses the whole prototype chain leaves
the prototype-aware collection loop unchanged. -/
theorem collectIssuesJs_skip (ast : MdNode) (name : String) (rc : RuleConfig)
    (h1 : rulesCatalog name = none) (h2 : name ∉ objectProtoNames) :
    ∀ (pre post : List (String × RuleConfig)),
      collectIssuesJs ast (pre ++ (name, rc) :: post)
        = collectIssuesJs ast (pre ++ post) := by
  intro pre
  induction pre with
  | nil =>
    intro post
    simp only [List.nil_append, collectIssuesJs, h1]
    rw [if_neg h2]
  | cons e pre2 ih =>
    intro post
    obtain ⟨n, c⟩ := e
    simp only [List.cons_append, collectIssuesJs, List.append_eq]
    rw [ih post]

/-- C7 amended: a configured rule name that has no catalog evaluator and
is not a property name inherited from Object.prototype is skipped
silently, both in the prototype-aware loop and in the resulting lint
output: removing the entry changes nothing.  (For inherited names such
as toString or hasOwnProperty the lookup is truthy and the member is
invoked instead, as the counterexample shows.) -/
theorem lintFile_skips_unknown_rule (ast : MdNode) (pre post : List (String × RuleConfig))
    (name : String) (rc : RuleConfig) (format : String)
    (h1 : rulesCatalog name = none) (h2 : name ∉ objectProtoNames) :
    collectIssuesJs ast (pre ++ (name, rc) :: post) = collectIssuesJs ast (pre ++ post)
    ∧ lintFile ast ⟨pre ++ (name, rc) :: post, format⟩
        = lintFile ast ⟨pre ++ post, format⟩ := by
  refine ⟨collectIssuesJs_skip ast name rc h1 h2 pre post, ?_⟩
  simp only [lintFile, collectIssues]
  congr 1
  rw [List.flatMap_append, List.flatMap_append, List.flatMap_cons]
  simp [h1]

/-- Witness for C7 at the concrete unknown rule name spellCheck, which
misses both the catalog and the prototype chain. -/
theorem lintFile_skips_unknown_rule_witness :
    collectIssuesJs sampleAst [("spellCheck", unknownRuleConfig)]
        = collectIssuesJs sampleAst []
    ∧ lintFile sampleAst ⟨[("spellCheck", unknownRuleConfig)], "text"⟩
        = lintFile sampleAst ⟨[], "text"⟩ :=
  lintFile_skips_unknown_rule sampleAst [] [] "spellCheck" unknownRuleConfig "text"
    rfl (by decide)

/-- C8: a numeric argument that is present but equal to 0 is falsy in the
JavaScript default idiom (value || default), so each of the three numeric
rules behaves exactly as when the field is absent, and the documented
defaults 10, 25 and 5 apply. -/
theorem zero_args_use_defaults :
    (∀ (node : MdNode) (level msg : String) (limitArg : Option Nat)
        (phrasesArg : Option (List String)),
      minimumWordsInSentence node ⟨level, msg, ⟨some 0, limitArg, phrasesArg⟩⟩
        = minimumWordsInSentence node ⟨level, msg, ⟨none, limitArg, phrasesArg⟩⟩) ∧
    (∀ (node : MdNode) (level msg : String) (minArg : Option Nat)
        (phrasesArg : Option (List String)),
      maxWordsInSentence node ⟨level, msg, ⟨minArg, some 0, phrasesArg⟩⟩
        = maxWordsInSentence node ⟨level, msg, ⟨minArg, none, phrasesArg⟩⟩) ∧
    (∀ (node : MdNode) (level msg : String) (minArg : Option Nat)
        (phrasesArg : Option (List String)),
      maxSentencesInParagraph node ⟨level, msg, ⟨minArg, some 0, phrasesArg⟩⟩
        = maxSentencesInParagraph node ⟨level, msg, ⟨minArg, none, phrasesArg⟩⟩) ∧
    jsOrNum (some 0) 10 = 10 ∧ jsOrNum (some 0) 25 = 25 ∧ jsOrNum (some 0) 5 = 5 :=
  ⟨fun _ _ _ _ _ => rfl, fun _ _ _ _ _ => rfl, fun _ _ _ _ _ => rfl, rfl, rfl, rfl⟩

/-- The first segment produced by the run splitter outside a separator run
is the pending accumulator followed by the longest non-separator
prefix of the remaining input. -/
theorem splitRunsGo_false_head (p : Char → Bool) (l : List Char) :
    ∀ acc : List Char, ∃ rest,
      splitRunsGo p l acc false
        = (acc.reverse ++ l.takeWhile (fun c => !p c)) :: rest := by
  induction l with
  | nil =>
    intro acc
    exact ⟨[], by simp [splitRunsGo]⟩
  | cons c cs ih =>
    intro acc
    by_cases hp : p c
    · exact ⟨splitRunsGo p cs [] true, by simp [splitRunsGo, hp, List.takeWhile_cons]⟩
    · obtain ⟨rest, hrest⟩ := ih (c :: acc)
      refine ⟨rest, ?_⟩
      simp only [splitRunsGo, hp, if_false, Bool.false_eq_true, hrest,
        List.takeWhile_cons, Bool.not_false, if_true]
      simp

/-- When the word list of a text starts with a non-empty word, that word
starts with the first character of the text. -/
theorem splitWords_head (l : List Char) (c : Char) (w : List Char)
    (ws : List (List Char)) (h : splitWords l = (c :: w) :: ws) :
    l.head? = some c := by
  obtain ⟨rest, hrest⟩ := splitRunsGo_false_head isWsChar l []
  rw [splitWords, jsSplit, hrest] at h
  cases l with
  | nil => simp at h
  | cons a t =>
    by_cases ha : isWsChar a
    · simp [List.takeWhile_cons, ha] at h
    · simp [List.takeWhile_cons, ha] at h
      simp [h.1.1]

/-- When the first character of the text equals its own uppercase image,
isSentenceCase reduces to the majority tally. -/
theorem isSentenceCaseL_eq_tally (l : List Char) (c : Char)
    (h : l.head? = some c) (hup : c = jsToUpperChar c) :
    isSentenceCaseL l = sentenceTally l := by
  cases l with
  | nil => simp at h
  | cons a rest =>
    simp only [List.head?_cons, Option.some.injEq] at h
    subst h
    have hnot : ¬ (a ≠ jsToUpperChar a) := fun hne => hne hup
    simp only [isSentenceCaseL, if_neg hnot]

/-- C4: the decision procedure of isSentenceCase. Empty text passes.  A
text whose first word is non-empty and starts with a character differing
from its own uppercase image is rejected (for such a text the first
character of the first word is the first character of the text).  When
the first character equals its uppercase image: exactly one word passes,
and with more than one word the text passes iff the number of words from
index 1 on whose first character is uppercase is strictly less than half
the total word count (real-number halving, hence the factor 2).  An empty
word never counts as capitalized.  The four documented examples hold. -/
theorem isSentenceCase_spec :
    isSentenceCase "" = true ∧
    (∀ (t : String) (c : Char) (w : List Char) (ws : List (List Char)),
      splitWords t.data = (c :: w) :: ws → c ≠ jsToUpperChar c →
      isSentenceCase t = false) ∧
    (∀ (t : String) (c : Char), t.data.head? = some c → c = jsToUpperChar c →
      (splitWords t.data).length = 1 → isSentenceCase t = true) ∧
    (∀ (t : String) (c : Char), t.data.head? = some c → c = jsToUpperChar c →
      1 < (splitWords t.data).length →
      (isSentenceCase t = true ↔
        2 * (((splitWords t.data).drop 1).countP isCapitalizedWord)
          < (splitWords t.data).length)) ∧
    isCapitalizedWord [] = false ∧
    isSentenceCase "" = true ∧
    isSentenceCase "hello world" = false ∧
    isSentenceCase "Hello world" = true ∧
    isSentenceCase "Hello World Foo" = false := by
  refine ⟨by decide, ?_, ?_, ?_, by decide, by decide, by decide, by decide, by decide⟩
  · intro t c w ws hsplit hne
    have hhead := splitWords_head t.data c w ws hsplit
    rw [isSentenceCase]
    cases ht : t.data with
    | nil => rw [ht] at hhead; simp at hhead
    | cons a rest =>
      rw [ht] at hhead
      simp only [List.head?_cons, Option.some.injEq] at hhead
      subst hhead
      simp [isSentenceCaseL, hne]
  · intro t c hhead hup hlen
    rw [isSentenceCase, isSentenceCaseL_eq_tally t.data c hhead hup]
    have h1 : (splitWords t.data).length ≤ 1 := by omega
    simp [sentenceTally, h1]
  · intro t c hhead hup hlen
    rw [isSentenceCase, isSentenceCaseL_eq_tally t.data c hhead hup]
    have h1 : ¬ ((splitWords t.data).length ≤ 1) := by omega
    simp [sentenceTally, h1]

/-- Witness for C4 at the documented failing example. -/
theorem isSentenceCase_spec_witness :
    isSentenceCase "hello world" = false :=
  isSentenceCase_spec.2.1 "hello world" 'h' ['e', 'l', 'l', 'o']
    [['w', 'o', 'r', 'l', 'd']] (by decide) (by decide)

/-- C10: a caseless character (ASCII non-letter: digit, punctuation,
whitespace) equals its own uppercase image, so a text starting with such a
character survives the initial rejection check and is decided by the
majority tally alone, and a subsequent word starting with such a character
counts as capitalized in that tally.  Concretely, a text of mostly
lowercase words after the caseless first word still passes, while
subsequent digit-initial words are tallied as capitalized and can cause
rejection. -/
theorem isSentenceCase_caseless_chars :
    (∀ c : Char, c.toNat < 128 → ¬('a' ≤ c ∧ c ≤ 'z') → ¬('A' ≤ c ∧ c ≤ 'Z') →
      jsToUpperChar c = c) ∧
    (∀ (t : String) (c : Char) (rest : List Char), t.data = c :: rest →
      c.toNat < 128 → ¬('a' ≤ c ∧ c ≤ 'z') → ¬('A' ≤ c ∧ c ≤ 'Z') →
      isSentenceCase t = sentenceTally t.data) ∧
    (∀ (w : List Char) (c : Char) (rest : List Char), w = c :: rest →
      c.toNat < 128 → ¬('a' ≤ c ∧ c ≤ 'z') → ¬('A' ≤ c ∧ c ≤ 'Z') →
      isCapitalizedWord w = true) ∧
    isSentenceCase "42 is the answer to all of it" = true ∧
    isSentenceCase "Hello 123 456" = false := by
  refine ⟨?_, ?_, ?_, by decide, by decide⟩
  · intro c _ hlow _
    simp [jsToUpperChar, hlow]
  · intro t c rest ht _ hlow _
    have hup : jsToUpperChar c = c := by simp [jsToUpperChar, hlow]
    have hhead : t.data.head? = some c := by rw [ht]; rfl
    rw [isSentenceCase, isSentenceCaseL_eq_tally t.data c hhead hup.symm]
  · intro w c rest hw _ hlow _
    have hup : jsToUpperChar c = c := by simp [jsToUpperChar, hlow]
    rw [hw]
    simp [isCapitalizedWord, hup]

/-- Witness for C10: the digit-initial word 42 counts as capitalized. -/
theorem isSentenceCase_caseless_chars_witness :
    isCapitalizedWord ['4', '2'] = true :=
  isSentenceCase_caseless_chars.2.2.1 ['4', '2'] '4' ['2'] rfl
    (by decide) (by decide) (by decide)

/-- filterMap with a conditional some is a filter followed by a map. -/
theorem filterMap_ite {α β : Type} (p : α → Prop) [DecidablePred p] (f : α → β)
    (l : List α) :
    (l.filterMap fun x => if p x then some (f x) else none)
      = (l.filter fun x => decide (p x)).map f := by
  induction l with
  | nil => rfl
  | cons a l ih =>
    by_cases ha : p a <;> simp [List.filterMap_cons, List.filter_cons, ha, ih]

/-- A paragraph whose text splits into six sentences. -/
def sixSentencePara : MdNode :=
  .node "paragraph" 4 "" [.node "text" 4 "One. Two. Three. Four. Five. Six." []]

/-- A document containing the six-sentence paragraph. -/
def sixSentenceRoot : MdNode := .node "root" 1 "" [sixSentencePara]

/-- The max-sentences rule configured with limit 5. -/
def limitFiveConfig : RuleConfig :=
  ⟨"error", "Too many sentences in paragraph.", ⟨none, some 5, none⟩⟩

/-- C6: maxSentencesInParagraph emits exactly one diagnostic per offending
paragraph: its output is the list of paragraphs whose sentence count
exceeds the limit, each mapped to a single diagnostic.  The documented
scenario holds: a paragraph with six sentences under limit 5 yields
exactly one diagnostic, not six. -/
theorem maxSentencesInParagraph_one_per_paragraph :
    (∀ (node : MdNode) (config : RuleConfig),
      maxSentencesInParagraph node config
        = ((collectKinds ["paragraph"] node).filter (fun p =>
            decide (jsOrNum config.args.limit 5
              < (splitIntoSentences (extractText p)).length))).map
            (fun p => ⟨p.line, "max-sentences-in-paragraph",
              config.level, config.message⟩)) ∧
    (splitIntoSentences (extractText sixSentencePara)).length = 6 ∧
    maxSentencesInParagraph sixSentenceRoot limitFiveConfig
      = [⟨4, "max-sentences-in-paragraph", "error",
          "Too many sentences in paragraph."⟩] := by
  refine ⟨?_, by decide, by decide⟩
  intro node config
  rw [maxSentencesInParagraph]
  exact filterMap_ite _ _ _

/-- The number of starting positions at which the needle occurs as a
contiguous sublist of the haystack (an empty needle occurs at every
position, including the end). -/
def countOccur (needle : List Char) : List Char → Nat
  | [] => if needle.isEmpty then 1 else 0
  | c :: t => (if needle.isPrefixOf (c :: t) then 1 else 0) + countOccur needle t

/-- The substring test is occurrence positivity: includes holds iff the
needle occurs at least once. -/
theorem strIncludes_pos_countOccur (hay needle : List Char) :
    strIncludes hay needle = decide (0 < countOccur needle hay) := by
  induction hay with
  | nil =>
    by_cases h : needle.isEmpty <;> simp [strIncludes, countOccur, h]
  | cons c t ih =>
    by_cases h : needle.isPrefixOf (c :: t) <;>
      simp [strIncludes, countOccur, h, ih]

/-- A paragraph in which the phrase has been occurs twice. -/
def doubleOccurPara : MdNode :=
  .node "paragraph" 2 "" [.node "text" 2 "It has been done and has been tested." []]

/-- A document containing that paragraph. -/
def doubleOccurRoot : MdNode := .node "root" 1 "" [doubleOccurPara]

/-- The banned-phrases rule with the default phrase list. -/
def defaultBannedConfig : RuleConfig :=
  ⟨"error", "Banned phrase identified.",
   ⟨none, none, some ["are used to", "has been", "has finished", "if you want to"]⟩⟩

/-- C9 amended: for each visited node, bannedPhrases emits one diagnostic
per entry of the configured phrase list (with multiplicity) whose
lowercased text occurs at least once in the lowercased node text; the
number of occurrences beyond the first is irrelevant.  Concretely, a
paragraph containing has been twice under the default list yields exactly
one diagnostic even though the occurrence count is two. -/
theorem bannedPhrases_per_entry :
    (∀ (node : MdNode) (config : RuleConfig),
      bannedPhrases node config
        = (collectKinds ["paragraph", "heading"] node).flatMap (fun tn =>
            ((jsOrPhrases config.args.phrases).filter (fun phrase =>
              decide (0 < countOccur (jsToLowerStr phrase).data
                (jsToLowerStr (extractText tn)).data))).map
              (fun _ => ⟨tn.line, "banned-phrases", config.level, config.message⟩))) ∧
    bannedPhrases doubleOccurRoot defaultBannedConfig
      = [⟨2, "banned-phrases", "error", "Banned phrase identified."⟩] ∧
    countOccur (jsToLowerStr "has been").data
      (jsToLowerStr (extractText doubleOccurPara)).data = 2 := by
  refine ⟨?_, by decide, by decide⟩
  intro node config
  rw [bannedPhrases]
  congr 1
  funext tn
  rw [filterMap_ite (p := fun phrase =>
        strIncludes (jsToLowerStr (extractText tn)).data (jsToLowerStr phrase).data = true)
      (f := fun _ => (⟨tn.line, "banned-phrases", config.level, config.message⟩ : Diagnostic))]
  congr 1
  apply List.filter_congr
  intro phrase _
  simp [strIncludes_pos_countOccur]

/-- A phrase list with a duplicated entry. -/
def dupPhraseConfig : RuleConfig :=
  ⟨"error", "Banned phrase identified.", ⟨none, none, some ["has been", "has been"]⟩⟩

/-- A paragraph containing the phrase has been once. -/
def hasBeenPara : MdNode :=
  .node "paragraph" 2 "" [.node "text" 2 "This has been deprecated." []]

/-- C9 counterexample: with the duplicated phrase list the node receives
two diagnostics, while only one distinct configured phrase occurs in it,
so the diagnostic count does not equal the number of distinct configured
phrases occurring at least once. -/
theorem bannedPhrases_duplicate_entries_counterexample :
    (bannedPhrases hasBeenPara dupPhraseConfig).length = 2 ∧
    (((jsOrPhrases dupPhraseConfig.args.phrases).map jsToLowerStr).dedup.filter
      (fun ph => strIncludes (jsToLowerStr (extractText hasBeenPara)).data ph.data)).length
      = 1 := by
  refine ⟨by decide, by decide⟩

/-- Splitting at every single separator character, the comparison point
for run splitting: a run of k separator characters yields k - 1 empty
segments between its characters. -/
def splitSingleGo (p : Char → Bool) : List Char → List Char → List (List Char)
  | [], acc => [acc.reverse]
  | c :: cs, acc =>
    if p c then acc.reverse :: splitSingleGo p cs []
    else splitSingleGo p cs (c :: acc)

/-- Split at every single separator character. -/
def splitEvery (p : Char → Bool) (l : List Char) : List (List Char) :=
  splitSingleGo p l []

/-- The head of a dropWhile result never satisfies the predicate. -/
theorem head?_dropWhile_false {α : Type} (p : α → Bool) (l : List α) (c : α)
    (h : (l.dropWhile p).head? = some c) : p c = false := by
  induction l with
  | nil => simp [List.dropWhile] at h
  | cons a t ih =>
    by_cases ha : p a = true
    · rw [List.dropWhile_cons, if_pos ha] at h
      exact ih h
    · rw [List.dropWhile_cons, if_neg ha] at h
      simp only [List.head?_cons, Option.some.injEq] at h
      subst h
      simpa using ha

/-- A non-empty dropWhile result ends where the original list ends. -/
theorem getLast?_dropWhile {α : Type} (p : α → Bool) (l : List α)
    (h : l.dropWhile p ≠ []) : (l.dropWhile p).getLast? = l.getLast? := by
  induction l with
  | nil => simp [List.dropWhile] at h
  | cons a t ih =>
    by_cases ha : p a = true
    · rw [List.dropWhile_cons, if_pos ha] at h ⊢
      have ht : t ≠ [] := by
        intro he
        rw [he] at h
        simp [List.dropWhile] at h
      have h2 : (a :: t).getLast? = t.getLast? := by
        cases t with
        | nil => exact absurd rfl ht
        | cons b t2 => exact List.getLast?_cons_cons
      rw [ih h, h2]
    · rw [List.dropWhile_cons, if_neg ha]

/-- A non-empty trimmed segment starts with a non-whitespace character. -/
theorem trimL_head_not_ws (l : List Char) (c : Char)
    (h : (trimL l).head? = some c) : isWsChar c = false := by
  rw [trimL, List.head?_reverse] at h
  have hne : (l.dropWhile isWsChar).reverse.dropWhile isWsChar ≠ [] := by
    intro he
    rw [he] at h
    simp at h
  rw [getLast?_dropWhile _ _ hne, List.getLast?_reverse] at h
  exact head?_dropWhile_false _ _ _ h

/-- A non-empty trimmed segment ends with a non-whitespace character. -/
theorem trimL_getLast_not_ws (l : List Char) (c : Char)
    (h : (trimL l).getLast? = some c) : isWsChar c = false := by
  rw [trimL, List.getLast?_reverse] at h
  exact head?_dropWhile_false _ _ _ h

/-- Trimming only removes characters. -/
theorem mem_trimL (x : List Char) (c : Char) (h : c ∈ trimL x) : c ∈ x := by
  rw [trimL, List.mem_reverse] at h
  have h1 := (List.dropWhile_sublist isWsChar).subset h
  rw [List.mem_reverse] at h1
  exact (List.dropWhile_sublist isWsChar).subset h1

/-- No character of any segment produced by the run splitter satisfies
the separator predicate, provided the pending accumulator is clean. -/
theorem mem_splitRunsGo_all (p : Char → Bool) :
    ∀ (l acc : List Char) (r : Bool) (seg : List Char),
      (∀ x ∈ acc, p x = false) → seg ∈ splitRunsGo p l acc r →
      ∀ c ∈ seg, p c = false := by
  intro l
  induction l with
  | nil =>
    intro acc r seg hacc hseg c hc
    simp only [splitRunsGo, List.mem_singleton] at hseg
    subst hseg
    exact hacc c (List.mem_reverse.mp hc)
  | cons a t ih =>
    intro acc r seg hacc hseg c hc
    cases r with
    | true =>
      by_cases ha : p a = true
      · rw [show splitRunsGo p (a :: t) acc true = splitRunsGo p t acc true from by
          simp [splitRunsGo, ha]] at hseg
        exact ih acc true seg hacc hseg c hc
      · rw [show splitRunsGo p (a :: t) acc true = splitRunsGo p t (a :: acc) false from by
          simp [splitRunsGo, ha]] at hseg
        refine ih (a :: acc) false seg ?_ hseg c hc
        intro x hx
        rcases List.mem_cons.mp hx with rfl | hx2
        · simpa using ha
        · exact hacc x hx2
    | false =>
      by_cases ha : p a = true
      · rw [show splitRunsGo p (a :: t) acc false
            = acc.reverse :: splitRunsGo p t [] true from by simp [splitRunsGo, ha]] at hseg
        rcases List.mem_cons.mp hseg with rfl | hseg2
        · exact hacc c (List.mem_reverse.mp hc)
        · exact ih [] true seg (by simp) hseg2 c hc
      · rw [show splitRunsGo p (a :: t) acc false
            = splitRunsGo p t (a :: acc) false from by simp [splitRunsGo, ha]] at hseg
        refine ih (a :: acc) false seg ?_ hseg c hc
        intro x hx
        rcases List.mem_cons.mp hx with rfl | hx2
        · simpa using ha
        · exact hacc x hx2

/-- After trimming and discarding empty segments, splitting on separator
runs agrees with splitting at every separator character: the extra
segments between the characters of a run are all empty and are dropped. -/
theorem splitRuns_every_trim_filter (p : Char → Bool) (l : List Char) :
    (∀ acc, ((splitRunsGo p l acc false).map trimL).filter (fun x => !x.isEmpty)
      = ((splitSingleGo p l acc).map trimL).filter (fun x => !x.isEmpty))
    ∧ ((splitRunsGo p l [] true).map trimL).filter (fun x => !x.isEmpty)
      = ((splitSingleGo p l []).map trimL).filter (fun x => !x.isEmpty) := by
  induction l with
  | nil => exact ⟨fun acc => rfl, rfl⟩
  | cons c cs ih =>
    obtain ⟨ihP, ihQ⟩ := ih
    constructor
    · intro acc
      by_cases hp : p c = true
      · rw [show splitRunsGo p (c :: cs) acc false
            = acc.reverse :: splitRunsGo p cs [] true from by simp [splitRunsGo, hp]]
        rw [show splitSingleGo p (c :: cs) acc
            = acc.reverse :: splitSingleGo p cs [] from by simp [splitSingleGo, hp]]
        simp only [List.map_cons, List.filter_cons]
        rw [ihQ]
      · rw [show splitRunsGo p (c :: cs) acc false
            = splitRunsGo p cs (c :: acc) false from by simp [splitRunsGo, hp]]
        rw [show splitSingleGo p (c :: cs) acc
            = splitSingleGo p cs (c :: acc) from by simp [splitSingleGo, hp]]
        exact ihP (c :: acc)
    · by_cases hp : p c = true
      · rw [show splitRunsGo p (c :: cs) [] true
            = splitRunsGo p cs [] true from by simp [splitRunsGo, hp]]
        rw [show splitSingleGo p (c :: cs) []
            = ([] : List Char) :: splitSingleGo p cs [] from by simp [splitSingleGo, hp]]
        have htn : trimL ([] : List Char) = [] := rfl
        simp only [List.map_cons, List.filter_cons, htn, List.isEmpty_nil,
          Bool.not_true, Bool.false_eq_true, if_false]
        exact ihQ
      · rw [show splitRunsGo p (c :: cs) [] true
            = splitRunsGo p cs [c] false from by simp [splitRunsGo, hp]]
        rw [show splitSingleGo p (c :: cs) []
            = splitSingleGo p cs [c] from by simp [splitSingleGo, hp]]
        exact ihP [c]

/-- C5: splitIntoSentences splits on runs of terminator characters, which
after trimming and discarding empties agrees with splitting at every
single terminator; every returned sentence is non-empty, contains no
terminator character, and carries no leading or trailing whitespace; and
the two documented examples hold. -/
theorem splitIntoSentences_spec :
    (∀ s : String, splitIntoSentences s
      = (((splitEvery isTermChar s.data).map trimL).filter (fun l => !l.isEmpty)).map
          (fun l => (⟨l⟩ : String))) ∧
    (∀ (s t : String), t ∈ splitIntoSentences s →
      t ≠ "" ∧ (∀ c ∈ t.data, isTermChar c = false) ∧
      (∀ c, t.data.head? = some c → isWsChar c = false) ∧
      (∀ c, t.data.getLast? = some c → isWsChar c = false)) ∧
    splitIntoSentences "Hello. World!" = ["Hello", "World"] ∧
    splitIntoSentences "No terminator" = ["No terminator"] := by
  refine ⟨?_, ?_, by decide, by decide⟩
  · intro s
    rw [splitIntoSentences, splitEvery, jsSplit]
    rw [(splitRuns_every_trim_filter isTermChar s.data).1 []]
  · intro s t ht
    rw [splitIntoSentences] at ht
    simp only [List.mem_map, List.mem_filter] at ht
    obtain ⟨l, ⟨⟨x, hx_mem, rfl⟩, hl_ne⟩, rfl⟩ := ht
    refine ⟨?_, ?_, ?_, ?_⟩
    · intro he
      have h0 : trimL x = [] := congrArg String.data he
      rw [h0] at hl_ne
      simp at hl_ne
    · intro c hc
      have hcx : c ∈ x := mem_trimL x c hc
      exact mem_splitRunsGo_all isTermChar s.data [] false x (by simp) hx_mem c hcx
    · intro c hc
      exact trimL_head_not_ws x c hc
    · intro c hc
      exact trimL_getLast_not_ws x c hc

/-- Witness for C5: the first segment of the documented example is
non-empty, obtained through the membership clause. -/
theorem splitIntoSentences_spec_witness :
    ("Hello" : String) ≠ "" :=
  (splitIntoSentences_spec.2.1 "Hello. World!" "Hello" (by decide)).1

end DocLint
